import Mathlib

/-!
Shallow embedding of the RSA-with-exponent-3 notebook (`src/RSA.ipynb`).

Python integers are modelled as `ℤ` for the cryptor (`encrypt`, `decrypt`),
whose range asserts can see negative inputs, and as `ℕ` for the primality
and key-generation layer, which only ever handles nonnegative values.
Python `%` agrees with `Int.emod` whenever the modulus is positive, and
Python `//` is floor division, `Int.fdiv`.  A failing `assert`, and a
`randint` call on an empty range, are modelled as `none`.  The
process-wide random generator is modelled by passing the sequence of
drawn values as an explicit argument.
-/

/-- Embeds `encrypt(m, n)`: `assert m >= 0 and m < n; return pow(m, 3, n)`.
A failed assert is `none`. -/
def encrypt (m n : ℤ) : Option ℤ :=
  if 0 ≤ m ∧ m < n then some (m ^ 3 % n) else none

/-- The decryption exponent `d = (2 * phi + 1) // 3` computed inside
`decrypt`, with `phi = (p - 1) * (q - 1)` inlined. -/
def decryption_exponent (p q : ℤ) : ℤ :=
  (2 * ((p - 1) * (q - 1)) + 1).fdiv 3

/-- Embeds `decrypt(c, p, q)`: `n = p * q; assert c >= 0 and c < n;
phi = (p - 1) * (q - 1); d = (2 * phi + 1) // 3; return pow(c, d, n)`.
Whenever the assert passes, `p * q > 0`, hence `(p - 1) * (q - 1) ≥ 0`
and the exponent is nonnegative, so taking `Int.toNat` of it is exact. -/
def decrypt (c p q : ℤ) : Option ℤ :=
  let n := p * q
  if 0 ≤ c ∧ c < n then some (c ^ (decryption_exponent p q).toNat % n) else none

/-- Embeds the `while k % 2 == 0` loop of `is_miller_rabin_witness`,
including the final `return False`.  `fuel` bounds the number of
iterations; every call made by the program supplies enough fuel, since
repeatedly halving `k = n - 1` reaches an odd value in fewer than `n`
steps. -/
def mrLoop (a n : ℕ) : ℕ → ℕ → Bool
  | _, 0 => false
  | k, fuel + 1 =>
    if k % 2 = 0 then
      let res := a ^ (k / 2) % n
      if res = n - 1 then false
      else if res ≠ 1 then true
      else mrLoop a n (k / 2) fuel
    else false

/-- Embeds `is_miller_rabin_witness(a, n)`: the Fermat check
`pow(a, n - 1, n) != 1` followed by the halving loop. -/
def is_miller_rabin_witness (a n : ℕ) : Bool :=
  if a ^ (n - 1) % n ≠ 1 then true
  else mrLoop a n (n - 1) n

/-- Embeds `is_probable_prime(n)` as a function of the stream of bases
drawn by `randint(1, n - 1)`: one stream element per round, counting the
rounds down from 50.  `none` models a raised error: `randint(1, n - 1)`
raises exactly when its range is empty (`n - 1 < 1`); an exhausted
stream is a modelling artifact that is also reported as `none`. -/
def is_probable_prime_aux (n : ℕ) : ℕ → List ℕ → Option Bool
  | 0, _ => some true
  | rounds + 1, draws =>
    if n - 1 < 1 then none
    else
      match draws with
      | [] => none
      | a :: rest =>
        if is_miller_rabin_witness a n then some false
        else is_probable_prime_aux n rounds rest

/-- Embeds `is_probable_prime(n)` with its fixed 50 rounds. -/
def is_probable_prime (n : ℕ) (draws : List ℕ) : Option Bool :=
  is_probable_prime_aux n 50 draws

/-- Embeds `random_6n_5_prime(lo, hi)` as a function of the stream of
loop iterations: each iteration consumes one `randint(lo, hi)` draw `r`
together with the bases consumed by its `is_probable_prime` call.
`none` models a propagated error or an exhausted stream (where the
Python loop would keep drawing). -/
def random_6n_5_prime (lo hi : ℕ) : List (ℕ × List ℕ) → Option ℕ
  | [] => none
  | (r, bases) :: rest =>
    let n := 6 * (r / 6) + 5
    if n < lo then random_6n_5_prime lo hi rest
    else
      match is_probable_prime n bases with
      | some true => some n
      | some false => random_6n_5_prime lo hi rest
      | none => none

/-- Embeds `generate_random_mod(lo, hi)`; each iteration consumes the
draw streams of its two `random_6n_5_prime` calls. -/
def generate_random_mod (lo hi : ℕ) :
    List (List (ℕ × List ℕ) × List (ℕ × List ℕ)) → Option (ℕ × ℕ)
  | [] => none
  | (ds1, ds2) :: rest =>
    match random_6n_5_prime lo hi ds1, random_6n_5_prime lo hi ds2 with
    | some p, some q =>
      if p ≠ q then some (p, q) else generate_random_mod lo hi rest
    | _, _ => none

/-- The source `encrypt` runs with the process-wide `random` state
ambient, but its body never reads or writes it; as a transformer of that
state it returns its pure result and leaves the state unchanged. -/
def encryptS (m n : ℤ) (rng : List ℕ) : Option ℤ × List ℕ :=
  (encrypt m n, rng)

/-- Same as `encryptS`, for `decrypt`. -/
def decryptS (c p q : ℤ) (rng : List ℕ) : Option ℤ × List ℕ :=
  (decrypt c p q, rng)

/-! Helper lemmas about the Miller-Rabin halving loop. -/

/-- Squaring step: the residue at exponent `2^(i+1)*d` is the square of
the residue at exponent `2^i*d`, reduced mod `n`. -/
theorem pow_exp_succ (a n d i : ℕ) :
    a ^ (2 ^ (i + 1) * d) % n = (a ^ (2 ^ i * d) % n) ^ 2 % n := by
  have h : 2 ^ (i + 1) * d = 2 ^ i * d * 2 := by ring
  rw [h, pow_mul, Nat.pow_mod]

/-- Once a residue is 1, all later squarings stay 1. -/
theorem all_one_above (a n d r : ℕ) (hn : 1 < n)
    (h : a ^ (2 ^ r * d) % n = 1) :
    ∀ i, r ≤ i → a ^ (2 ^ i * d) % n = 1 := by
  intro i hi
  induction i, hi using Nat.le_induction with
  | base => exact h
  | succ i hri ih =>
    rw [pow_exp_succ, ih, one_pow, Nat.mod_eq_of_lt hn]

/-- Once a residue is `n - 1`, the next squaring gives 1 and all later
ones stay 1. -/
theorem one_above_hit (a n d r : ℕ) (hn : 2 < n)
    (h : a ^ (2 ^ r * d) % n = n - 1) :
    ∀ i, r < i → a ^ (2 ^ i * d) % n = 1 := by
  have hbase : a ^ (2 ^ (r + 1) * d) % n = 1 := by
    obtain ⟨m, rfl⟩ : ∃ m, n = m + 2 := ⟨n - 2, by omega⟩
    rw [pow_exp_succ, h]
    have h1 : m + 2 - 1 = m + 1 := by omega
    have h2 : (m + 1) ^ 2 = (m + 2) * m + 1 := by ring
    rw [h1, h2, Nat.mul_add_mod, Nat.mod_eq_of_lt (by omega)]
  intro i hi
  exact all_one_above a n d (r + 1) (by omega) hbase i hi

/-- If every residue strictly below level `j` is 1, the halving loop
run from exponent `2^j*d` falls through to `return False`. -/
theorem mrLoop_false_all_one (a n d : ℕ) (hn : 2 < n) (hd : d % 2 = 1) :
    ∀ j, (∀ i, i < j → a ^ (2 ^ i * d) % n = 1) →
      ∀ fuel, j ≤ fuel → mrLoop a n (2 ^ j * d) fuel = false := by
  intro j
  induction j with
  | zero =>
    intro _ fuel _
    cases fuel with
    | zero => rfl
    | succ f =>
      have h0 : 2 ^ 0 * d = d := by simp
      rw [h0]
      simp only [mrLoop]
      rw [if_neg (by omega : ¬d % 2 = 0)]
  | succ j ih =>
    intro h fuel hfuel
    cases fuel with
    | zero => omega
    | succ f =>
      have heven : (2 ^ (j + 1) * d) % 2 = 0 := by
        have : 2 ^ (j + 1) * d = 2 * (2 ^ j * d) := by ring
        rw [this, Nat.mul_mod_right]
      have hhalf : 2 ^ (j + 1) * d / 2 = 2 ^ j * d := by
        have : 2 ^ (j + 1) * d = 2 * (2 ^ j * d) := by ring
        rw [this, Nat.mul_div_cancel_left _ (by omega)]
      have hres : a ^ (2 ^ j * d) % n = 1 := h j (by omega)
      have hne : ¬(1 : ℕ) = n - 1 := by omega
      simp only [mrLoop, heven, if_true, hhalf, hres]
      simp only [hne, if_false, ne_eq, not_true_eq_false]
      exact ih (fun i hi => h i (by omega)) f (by omega)

/-- If the residue at level `r` is `n - 1` and every level strictly
between `r` and `j` is 1, the loop run from exponent `2^j*d` returns
`False` at level `r`. -/
theorem mrLoop_false_hit (a n d : ℕ) (hn : 2 < n) (r : ℕ)
    (hr : a ^ (2 ^ r * d) % n = n - 1) :
    ∀ j, r < j → ∀ fuel, j ≤ fuel → mrLoop a n (2 ^ j * d) fuel = false := by
  intro j hj
  induction j, hj using Nat.le_induction with
  | base =>
    intro fuel hfuel
    cases fuel with
    | zero => omega
    | succ f =>
      have heven : (2 ^ (r + 1) * d) % 2 = 0 := by
        have : 2 ^ (r + 1) * d = 2 * (2 ^ r * d) := by ring
        rw [this, Nat.mul_mod_right]
      have hhalf : 2 ^ (r + 1) * d / 2 = 2 ^ r * d := by
        have : 2 ^ (r + 1) * d = 2 * (2 ^ r * d) := by ring
        rw [this, Nat.mul_div_cancel_left _ (by omega)]
      simp [mrLoop, heven, hhalf, hr]
  | succ j hrj ih =>
    intro fuel hfuel
    cases fuel with
    | zero => omega
    | succ f =>
      have heven : (2 ^ (j + 1) * d) % 2 = 0 := by
        have : 2 ^ (j + 1) * d = 2 * (2 ^ j * d) := by ring
        rw [this, Nat.mul_mod_right]
      have hhalf : 2 ^ (j + 1) * d / 2 = 2 ^ j * d := by
        have : 2 ^ (j + 1) * d = 2 * (2 ^ j * d) := by ring
        rw [this, Nat.mul_div_cancel_left _ (by omega)]
      have hres : a ^ (2 ^ j * d) % n = 1 :=
        one_above_hit a n d r hn hr j hrj
      have hne : ¬(1 : ℕ) = n - 1 := by omega
      simp only [mrLoop, heven, if_true, hhalf, hres]
      simp only [hne, if_false, ne_eq, not_true_eq_false]
      exact ih f (by omega)

/-- Conversely: starting the loop at exponent `2^j*d` with residue 1
there, a `False` outcome means the odd-part residue was 1 or some level
below `j` hit `n - 1`. -/
theorem mrLoop_false_extract (a n d : ℕ) (hn : 2 < n) :
    ∀ j fuel, j ≤ fuel → a ^ (2 ^ j * d) % n = 1 →
      mrLoop a n (2 ^ j * d) fuel = false →
      a ^ d % n = 1 ∨ ∃ r, r < j ∧ a ^ (2 ^ r * d) % n = n - 1 := by
  intro j
  induction j with
  | zero =>
    intro fuel _ hone _
    left
    simpa using hone
  | succ j ih =>
    intro fuel hfuel hone hloop
    cases fuel with
    | zero => omega
    | succ f =>
      have heven : (2 ^ (j + 1) * d) % 2 = 0 := by
        have : 2 ^ (j + 1) * d = 2 * (2 ^ j * d) := by ring
        rw [this, Nat.mul_mod_right]
      have hhalf : 2 ^ (j + 1) * d / 2 = 2 ^ j * d := by
        have : 2 ^ (j + 1) * d = 2 * (2 ^ j * d) := by ring
        rw [this, Nat.mul_div_cancel_left _ (by omega)]
      simp only [mrLoop, heven, if_true, hhalf] at hloop
      by_cases hhit : a ^ (2 ^ j * d) % n = n - 1
      · exact Or.inr ⟨j, by omega, hhit⟩
      · rw [if_neg hhit] at hloop
        by_cases hres : a ^ (2 ^ j * d) % n = 1
        · rw [if_neg (by simpa using hres)] at hloop
          rcases ih f (by omega) hres hloop with h | ⟨r, hr, hhit'⟩
          · exact Or.inl h
          · exact Or.inr ⟨r, by omega, hhit'⟩
        · rw [if_pos (by simpa using hres)] at hloop
          cases hloop

/-- For p, q ≡ 5 (mod 6) the numerator `2*(p-1)*(q-1) + 1` of the
decryption exponent is divisible by 3 (natural-number version). -/
theorem dvd_three_nat (p q : ℕ) (hp6 : p % 6 = 5) (hq6 : q % 6 = 5) :
    3 ∣ 2 * ((p - 1) * (q - 1)) + 1 := by
  obtain ⟨k, hk⟩ : ∃ k, p = 6 * k + 5 := ⟨p / 6, by omega⟩
  obtain ⟨l, hl⟩ : ∃ l, q = 6 * l + 5 := ⟨q / 6, by omega⟩
  refine ⟨24 * k * l + 16 * k + 16 * l + 11, ?_⟩
  subst hk; subst hl
  have h1 : 6 * k + 5 - 1 = 6 * k + 4 := by omega
  have h2 : 6 * l + 5 - 1 = 6 * l + 4 := by omega
  rw [h1, h2]
  ring

/-- Fermat's little theorem, iterated: raising to any exponent of the
form `(p-1)*e + 1` fixes every residue mod a prime p. -/
theorem pow_totient_step (p e m : ℕ) (hp : p.Prime) :
    m ^ ((p - 1) * e + 1) ≡ m [MOD p] := by
  haveI := Fact.mk hp
  have h : ((m : ZMod p)) ^ ((p - 1) * e + 1) = (m : ZMod p) := by
    by_cases hm : (m : ZMod p) = 0
    · rw [hm, zero_pow (Nat.succ_ne_zero _)]
    · rw [pow_succ, pow_mul, ZMod.pow_card_sub_one_eq_one hm, one_pow, one_mul]
  have hcast : ((m ^ ((p - 1) * e + 1) : ℕ) : ZMod p) = ((m : ℕ) : ZMod p) := by
    push_cast
    exact h
  exact (ZMod.natCast_eq_natCast_iff _ _ _).mp hcast

/-- The heart of C1 over ℕ: cubing then raising to the decryption
exponent `d = (2*(p-1)*(q-1) + 1) / 3` gives back any `m < p*q`. -/
theorem roundtrip_core (p q m : ℕ) (hp : p.Prime) (hq : q.Prime)
    (hp6 : p % 6 = 5) (hq6 : q % 6 = 5) (hne : p ≠ q) (hm : m < p * q) :
    (m ^ 3 % (p * q)) ^ ((2 * ((p - 1) * (q - 1)) + 1) / 3) % (p * q) = m := by
  have h3 := dvd_three_nat p q hp6 hq6
  have h3d : 3 * ((2 * ((p - 1) * (q - 1)) + 1) / 3) =
      2 * ((p - 1) * (q - 1)) + 1 := Nat.mul_div_cancel' h3
  have hkey : m ^ (2 * ((p - 1) * (q - 1)) + 1) ≡ m [MOD p * q] := by
    have hcop : Nat.Coprime p q := (Nat.coprime_primes hp hq).mpr hne
    rw [← Nat.modEq_and_modEq_iff_modEq_mul hcop]
    constructor
    · have hexp : (p - 1) * (2 * (q - 1)) + 1 =
          2 * ((p - 1) * (q - 1)) + 1 := by ring
      have h := pow_totient_step p (2 * (q - 1)) m hp
      rwa [hexp] at h
    · have hexp : (q - 1) * (2 * (p - 1)) + 1 =
          2 * ((p - 1) * (q - 1)) + 1 := by ring
      have h := pow_totient_step q (2 * (p - 1)) m hq
      rwa [hexp] at h
  have hfinal : (m ^ 3 % (p * q)) ^ ((2 * ((p - 1) * (q - 1)) + 1) / 3) ≡ m
      [MOD p * q] := by
    calc (m ^ 3 % (p * q)) ^ ((2 * ((p - 1) * (q - 1)) + 1) / 3)
        ≡ (m ^ 3) ^ ((2 * ((p - 1) * (q - 1)) + 1) / 3) [MOD p * q] :=
          (Nat.mod_modEq (m ^ 3) (p * q)).pow _
      _ = m ^ (2 * ((p - 1) * (q - 1)) + 1) := by rw [← pow_mul, h3d]
      _ ≡ m [MOD p * q] := hkey
  have h := hfinal
  rwa [Nat.ModEq, Nat.mod_eq_of_lt hm] at h

/-- Fermat's little theorem in the form used by the Fermat check of
`is_miller_rabin_witness`. -/
theorem fermat_little (n a : ℕ) (hp : n.Prime) (h1 : 1 ≤ a) (h2 : a < n) :
    a ^ (n - 1) % n = 1 := by
  haveI := Fact.mk hp
  have ha : (a : ZMod n) ≠ 0 := by
    rw [Ne, ZMod.natCast_zmod_eq_zero_iff_dvd]
    intro hdvd
    exact absurd (Nat.le_of_dvd (by omega) hdvd) (by omega)
  have hpow := ZMod.pow_card_sub_one_eq_one ha
  have hcast : ((a ^ (n - 1) : ℕ) : ZMod n) = ((1 : ℕ) : ZMod n) := by
    push_cast
    exact hpow
  have hmod : a ^ (n - 1) % n = 1 % n :=
    (ZMod.natCast_eq_natCast_iff _ _ _).mp hcast
  rwa [Nat.mod_eq_of_lt hp.one_lt] at hmod

/-- In `ZMod n` with `n` prime, a square root of 1 below `n` is 1 or
`n - 1`. -/
theorem sq_root_one (n x : ℕ) (hp : n.Prime) (hx : x < n)
    (h : x ^ 2 % n = 1) : x = 1 ∨ x = n - 1 := by
  haveI := Fact.mk hp
  have h2 : ((x ^ 2 : ℕ) : ZMod n) = ((1 : ℕ) : ZMod n) := by
    rw [ZMod.natCast_eq_natCast_iff]
    show x ^ 2 % n = 1 % n
    rw [h, Nat.mod_eq_of_lt hp.one_lt]
  have hx2 : ((x : ZMod n) - 1) * ((x : ZMod n) + 1) = 0 := by
    push_cast at h2
    linear_combination h2
  rcases mul_eq_zero.mp hx2 with h' | h'
  · left
    have hxx : (x : ZMod n) = ((1 : ℕ) : ZMod n) := by
      push_cast
      exact sub_eq_zero.mp h'
    have := (ZMod.natCast_eq_natCast_iff _ _ _).mp hxx
    rwa [Nat.ModEq, Nat.mod_eq_of_lt hx, Nat.mod_eq_of_lt hp.one_lt] at this
  · right
    have hneg : ((n - 1 : ℕ) : ZMod n) = -1 := by
      have h1n : (1 : ℕ) ≤ n := hp.one_lt.le
      rw [Nat.cast_sub h1n, ZMod.natCast_self, Nat.cast_one, zero_sub]
    have hxx : (x : ZMod n) = ((n - 1 : ℕ) : ZMod n) := by
      rw [hneg]
      exact eq_neg_of_add_eq_zero_left h'
    have := (ZMod.natCast_eq_natCast_iff _ _ _).mp hxx
    rwa [Nat.ModEq, Nat.mod_eq_of_lt hx, Nat.mod_eq_of_lt (by omega)] at this

/-- For a prime modulus the halving loop can never produce a witness:
each residue it inspects is a square root of 1, hence 1 or `n - 1`. -/
theorem mrLoop_false_of_prime (n a : ℕ) (hp : n.Prime) :
    ∀ fuel k, a ^ k % n = 1 → mrLoop a n k fuel = false := by
  intro fuel
  induction fuel with
  | zero => intro k _; rfl
  | succ f ih =>
    intro k hk
    by_cases hkeven : k % 2 = 0
    · have hhalf : 2 * (k / 2) = k := by omega
      have hsq : (a ^ (k / 2) % n) ^ 2 % n = 1 := by
        rw [← Nat.pow_mod, ← pow_mul, mul_comm, hhalf, hk]
      have hlt : a ^ (k / 2) % n < n := Nat.mod_lt _ hp.pos
      by_cases hhit : a ^ (k / 2) % n = n - 1
      · simp [mrLoop, hkeven, hhit]
      · have hone : a ^ (k / 2) % n = 1 := by
          rcases sq_root_one n _ hp hlt hsq with h | h
          · exact h
          · exact absurd h hhit
        simp only [mrLoop, hkeven, if_true, hhit, if_false]
        rw [if_neg (by simpa using hone)]
        exact ih (k / 2) hone
    · simp [mrLoop, hkeven]

/-- A prime is never accused by any base in `[1, n)`. -/
theorem witness_false_of_prime (n a : ℕ) (hp : n.Prime) (h1 : 1 ≤ a)
    (h2 : a < n) : is_miller_rabin_witness a n = false := by
  have hferm := fermat_little n a hp h1 h2
  simp only [is_miller_rabin_witness, ne_eq, hferm, not_true_eq_false,
    if_false]
  exact mrLoop_false_of_prime n a hp n (n - 1) hferm

/-- If no draw is a witness and the stream covers the round count, the
round loop reports `probably prime`. -/
theorem aux_all_nonwitness (n : ℕ) (hn : 2 ≤ n) :
    ∀ rounds ds, rounds ≤ List.length ds →
      (∀ a ∈ ds, is_miller_rabin_witness a n = false) →
      is_probable_prime_aux n rounds ds = some true := by
  intro rounds
  induction rounds with
  | zero => intro ds _ _; rfl
  | succ r ih =>
    intro ds hlen hall
    cases ds with
    | nil => simp at hlen
    | cons a rest =>
      simp only [is_probable_prime_aux]
      rw [if_neg (by omega : ¬n - 1 < 1)]
      rw [hall a (by simp), if_neg (by simp)]
      exact ih rest (by simpa using hlen) fun b hb => hall b (by simp [hb])

/-- The round loop always reaches a verdict for `n ≥ 2` when the stream
covers the round count. -/
theorem aux_total (n : ℕ) (hn : 2 ≤ n) :
    ∀ rounds ds, rounds ≤ List.length ds →
      ∃ b, is_probable_prime_aux n rounds ds = some b := by
  intro rounds
  induction rounds with
  | zero => intro ds _; exact ⟨true, rfl⟩
  | succ r ih =>
    intro ds hlen
    cases ds with
    | nil => simp at hlen
    | cons a rest =>
      simp only [is_probable_prime_aux]
      rw [if_neg (by omega : ¬n - 1 < 1)]
      by_cases hw : is_miller_rabin_witness a n = true
      · exact ⟨false, by simp [hw]⟩
      · rw [if_neg hw]
        exact ih rest (by simpa using hlen)

/-- For `n ≤ 1` the first `randint(1, n - 1)` call has an empty range,
so every round-loop entry raises. -/
theorem aux_err (n : ℕ) (hn : n ≤ 1) (r : ℕ) (ds : List ℕ) :
    is_probable_prime_aux n (r + 1) ds = none := by
  simp only [is_probable_prime_aux]
  rw [if_pos (by omega : n - 1 < 1)]

/-- C2: for odd `n > 2` with `n - 1 = 2^s * d` (`d` odd) and any base
`1 ≤ a < n`, the code's descending halving loop declares `a` a
non-witness exactly when `a^d ≡ 1 (mod n)` or `a^(2^r * d) ≡ n - 1
(mod n)` for some `r < s` — the ascending textbook predicate. -/
theorem claim_C2 (a n s d : ℕ) (hn : 2 < n) (hodd : n % 2 = 1)
    (hsd : n - 1 = 2 ^ s * d) (hd : d % 2 = 1) (ha1 : 1 ≤ a) (han : a < n) :
    (is_miller_rabin_witness a n = false ↔
      (a ^ d ≡ 1 [MOD n] ∨ ∃ r, r < s ∧ a ^ (2 ^ r * d) ≡ n - 1 [MOD n])) := by
  have h1n : 1 % n = 1 := Nat.mod_eq_of_lt (by omega)
  have hn1n : (n - 1) % n = n - 1 := Nat.mod_eq_of_lt (by omega)
  have hmod1 : ∀ x : ℕ, (x ≡ 1 [MOD n]) ↔ x % n = 1 := by
    intro x
    rw [Nat.ModEq, h1n]
  have hmodn1 : ∀ x : ℕ, (x ≡ n - 1 [MOD n]) ↔ x % n = n - 1 := by
    intro x
    rw [Nat.ModEq, hn1n]
  have hs_le : s ≤ n := by
    have h2s : s < 2 ^ s := Nat.lt_two_pow s
    have hd1 : 1 ≤ d := by omega
    have hle : 2 ^ s * 1 ≤ 2 ^ s * d := Nat.mul_le_mul_left _ hd1
    omega
  constructor
  · intro hfalse
    by_cases hferm : a ^ (n - 1) % n = 1
    · have hloop : mrLoop a n (n - 1) n = false := by
        simpa [is_miller_rabin_witness, hferm] using hfalse
      rw [hsd] at hloop hferm
      rcases mrLoop_false_extract a n d hn s n hs_le hferm hloop with
        h | ⟨r, hr, hhit⟩
      · exact Or.inl ((hmod1 _).mpr h)
      · exact Or.inr ⟨r, hr, (hmodn1 _).mpr hhit⟩
    · simp [is_miller_rabin_witness, hferm] at hfalse
  · intro hspec
    have hferm2 : a ^ (2 ^ s * d) % n = 1 := by
      rcases hspec with h | ⟨r, hrs, hhit⟩
      · have h0 : a ^ (2 ^ 0 * d) % n = 1 := by
          simpa using (hmod1 _).mp h
        exact all_one_above a n d 0 (by omega) h0 s (by omega)
      · exact one_above_hit a n d r hn ((hmodn1 _).mp hhit) s hrs
    have hloop : mrLoop a n (2 ^ s * d) n = false := by
      rcases hspec with h | ⟨r, hrs, hhit⟩
      · have h0 : a ^ (2 ^ 0 * d) % n = 1 := by
          simpa using (hmod1 _).mp h
        exact mrLoop_false_all_one a n d hn hd s
          (fun i _ => all_one_above a n d 0 (by omega) h0 i (by omega))
          n hs_le
      · exact mrLoop_false_hit a n d hn r ((hmodn1 _).mp hhit) s hrs n hs_le
    unfold is_miller_rabin_witness
    rw [hsd, if_neg (not_not_intro hferm2)]
    exact hloop

theorem claim_C2_witness :
    (2 < 9 ∧ 9 % 2 = 1 ∧ 9 - 1 = 2 ^ 3 * 1 ∧ 1 % 2 = 1 ∧ 1 ≤ 1 ∧ 1 < 9) ∧
    (is_miller_rabin_witness 1 9 = false ↔
      (1 ^ 1 ≡ 1 [MOD 9] ∨ ∃ r, r < 3 ∧ 1 ^ (2 ^ r * 1) ≡ 9 - 1 [MOD 9])) :=
  ⟨by decide,
   claim_C2 1 9 3 1 (by decide) (by decide) (by decide) (by decide)
     (by decide) (by decide)⟩

/-- C4: a prime `n` is never declared composite: for any stream of bases
drawn from `[1, n - 1]` covering the 50 rounds, `is_probable_prime`
returns `True`. -/
theorem claim_C4 (n : ℕ) (hp : n.Prime) (draws : List ℕ)
    (hdr : ∀ a ∈ draws, 1 ≤ a ∧ a < n) (hlen : 50 ≤ List.length draws) :
    is_probable_prime n draws = some true :=
  aux_all_nonwitness n hp.two_le 50 draws hlen fun a ha =>
    witness_false_of_prime n a hp (hdr a ha).1 (hdr a ha).2

theorem claim_C4_witness :
    Nat.Prime 97 ∧ (∀ a ∈ List.replicate 50 2, 1 ≤ a ∧ a < 97) ∧
    is_probable_prime 97 (List.replicate 50 2) = some true :=
  ⟨by norm_num, by decide,
   claim_C4 97 (by norm_num) (List.replicate 50 2) (by decide) (by decide)⟩

/-- C10: for `n ≥ 2` (and a stream covering the 50 rounds) the tester
always returns a boolean; for `n ≤ 1` the first `randint(1, n - 1)` call
has an empty range, so the tester raises instead of returning — there is
no special-casing of `n ≤ 1`. -/
theorem claim_C10 (n : ℕ) (draws : List ℕ) :
    (2 ≤ n → 50 ≤ List.length draws →
      ∃ b, is_probable_prime n draws = some b) ∧
    (n ≤ 1 → is_probable_prime n draws = none) := by
  constructor
  · intro hn hlen
    exact aux_total n hn 50 draws hlen
  · intro hn
    show is_probable_prime_aux n (49 + 1) draws = none
    exact aux_err n hn 49 draws

theorem claim_C10_witness :
    (2 ≤ 2 ∧ 50 ≤ List.length (List.replicate 50 1) ∧
      ∃ b, is_probable_prime 2 (List.replicate 50 1) = some b) ∧
    ((1 : ℕ) ≤ 1 ∧ is_probable_prime 1 [5] = none) :=
  ⟨⟨by decide, by decide,
    (claim_C10 2 (List.replicate 50 1)).1 (by decide) (by decide)⟩,
   ⟨by decide, (claim_C10 1 [5]).2 (by decide)⟩⟩

/-- Every success of `random_6n_5_prime` comes from some iteration whose
draw `r` projects onto it, and the projection `6*(r/6)+5` lies in
`[lo, hi+5]` when the draws lie in `[lo, hi]` (the code checks the lower
bound, and the projection adds at most 5 to the draw; it has no upper
check, so `hi` can be exceeded by up to 5). -/
theorem r65_range (lo hi : ℕ) :
    ∀ ds r, (∀ x ∈ ds, lo ≤ (x : ℕ × List ℕ).1 ∧ x.1 ≤ hi) →
      random_6n_5_prime lo hi ds = some r → lo ≤ r ∧ r ≤ hi + 5 := by
  intro ds
  induction ds with
  | nil => intro r _ h; simp [random_6n_5_prime] at h
  | cons head tl ih =>
    intro r hx h
    obtain ⟨rv, bases⟩ := head
    simp only [random_6n_5_prime] at h
    split at h
    · exact ih r (fun x hx' => hx x (by simp [hx'])) h
    · split at h
      · rename_i hlo _ _
        have hr := Option.some.inj h
        have hrv := hx (rv, bases) (by simp)
        simp only at hrv
        constructor
        · omega
        · omega
      · exact ih r (fun x hx' => hx x (by simp [hx'])) h
      · cases h

/-- Every success of `random_6n_5_prime` has residue 5 mod 6 and was
accepted by `is_probable_prime`. -/
theorem r65_residue (lo hi : ℕ) :
    ∀ ds r, random_6n_5_prime lo hi ds = some r →
      r % 6 = 5 ∧
      ∃ x ∈ ds, 6 * ((x : ℕ × List ℕ).1 / 6) + 5 = r ∧
        is_probable_prime r x.2 = some true := by
  intro ds
  induction ds with
  | nil => intro r h; simp [random_6n_5_prime] at h
  | cons head tl ih =>
    intro r h
    obtain ⟨rv, bases⟩ := head
    simp only [random_6n_5_prime] at h
    split at h
    · obtain ⟨hm, x, hmem, hx⟩ := ih r h
      exact ⟨hm, x, by simp [hmem], hx⟩
    · split at h
      · rename_i heq
        have hr := Option.some.inj h
        constructor
        · omega
        · refine ⟨(rv, bases), by simp, by simpa using hr, ?_⟩
          rw [← hr]
          exact heq
      · obtain ⟨hm, x, hmem, hx⟩ := ih r h
        exact ⟨hm, x, by simp [hmem], hx⟩
      · cases h

/-- C3 as written is false: with `lo = 0`, `hi = 6`, a draw of 6 (inside
`[lo, hi]`) projects to `6*(6/6)+5 = 11 > hi`, which is prime, so
`random_6n_5_prime 0 6` returns 11 even though the claim says every
return value is at most `hi = 6`. -/
theorem claim_C3_counterexample :
    (0 : ℕ) ≤ 6 ∧
    (∀ x ∈ [((6 : ℕ), List.replicate 50 1)], 0 ≤ x.1 ∧ x.1 ≤ 6) ∧
    random_6n_5_prime 0 6 [(6, List.replicate 50 1)] = some 11 ∧
    ¬(11 : ℕ) ≤ 6 := by
  decide

/-- C3 (amended): for `lo ≤ hi` and draws inside `[lo, hi]`, every value
returned by `random_6n_5_prime lo hi` — and hence each component of
every pair returned by `generate_random_mod lo hi` — lies in the
interval `[lo, hi + 5]` (the projection `6*(r/6)+5` can exceed the draw
by up to 5 and the code has no upper check, so `hi` itself is not an
upper bound). -/
theorem claim_C3 (lo hi : ℕ) (hlh : lo ≤ hi) :
    (∀ r ds, (∀ x ∈ ds, lo ≤ (x : ℕ × List ℕ).1 ∧ x.1 ≤ hi) →
      random_6n_5_prime lo hi ds = some r → lo ≤ r ∧ r ≤ hi + 5) ∧
    (∀ p q dss,
      (∀ y ∈ dss,
        (∀ x ∈ (y : List (ℕ × List ℕ) × List (ℕ × List ℕ)).1,
          lo ≤ x.1 ∧ x.1 ≤ hi) ∧
        (∀ x ∈ y.2, lo ≤ x.1 ∧ x.1 ≤ hi)) →
      generate_random_mod lo hi dss = some (p, q) →
      (lo ≤ p ∧ p ≤ hi + 5) ∧ (lo ≤ q ∧ q ≤ hi + 5)) := by
  constructor
  · intro r ds hds h
    exact r65_range lo hi ds r hds h
  · intro p q dss
    induction dss with
    | nil => intro _ h; simp [generate_random_mod] at h
    | cons head tl ih =>
      intro hy h
      obtain ⟨ds1, ds2⟩ := head
      simp only [generate_random_mod] at h
      split at h
      · rename_i p' q' heq1 heq2
        split at h
        · have hpq := Option.some.inj h
          have h1 := r65_range lo hi ds1 p' ((hy (ds1, ds2) (by simp)).1) heq1
          have h2 := r65_range lo hi ds2 q' ((hy (ds1, ds2) (by simp)).2) heq2
          have hp : p = p' := by
            have := congrArg Prod.fst hpq
            simpa using this.symm
          have hq : q = q' := by
            have := congrArg Prod.snd hpq
            simpa using this.symm
          rw [hp, hq]
          exact ⟨h1, h2⟩
        · exact ih (fun y hy' => hy y (by simp [hy'])) h
      · cases h

theorem claim_C3_witness :
    ((0 : ℕ) ≤ 11 ∧ (11 : ℕ) ≤ 6 + 5) ∧
    (((0 : ℕ) ≤ 11 ∧ (11 : ℕ) ≤ 6 + 5) ∧ ((0 : ℕ) ≤ 5 ∧ (5 : ℕ) ≤ 6 + 5)) :=
  ⟨(claim_C3 0 6 (by decide)).1 11 [(6, List.replicate 50 1)]
      (by decide) (by decide),
   (claim_C3 0 6 (by decide)).2 11 5
      [([(6, List.replicate 50 1)], [(5, List.replicate 50 1)])]
      (by decide) (by decide)⟩

/-- C8: every value returned by `random_6n_5_prime` is congruent to 5
modulo 6 and was accepted by the `is_probable_prime` call of the
iteration that produced it. -/
theorem claim_C8 (lo hi r : ℕ) (ds : List (ℕ × List ℕ)) (hlh : lo ≤ hi)
    (h : random_6n_5_prime lo hi ds = some r) :
    r % 6 = 5 ∧
    ∃ x ∈ ds, 6 * (x.1 / 6) + 5 = r ∧ is_probable_prime r x.2 = some true :=
  r65_residue lo hi ds r h

theorem claim_C8_witness :
    (11 : ℕ) % 6 = 5 ∧
    ∃ x ∈ [((11 : ℕ), List.replicate 50 1)],
      6 * (x.1 / 6) + 5 = 11 ∧ is_probable_prime 11 x.2 = some true :=
  claim_C8 10 20 11 [(11, List.replicate 50 1)] (by decide) (by decide)

/-- C5: for all p, q ≡ 5 (mod 6), `(2*(p-1)*(q-1) + 1) % 3 == 0`, so the
floor division `d = (2*phi + 1) // 3` performed by `decrypt` is exact:
`3 * d` gives back `2*phi + 1`. -/
theorem claim_C5 (p q : ℤ) (hp : p % 6 = 5) (hq : q % 6 = 5) :
    (2 * ((p - 1) * (q - 1)) + 1) % 3 = 0 ∧
    3 * decryption_exponent p q = 2 * ((p - 1) * (q - 1)) + 1 := by
  obtain ⟨k, hk⟩ : ∃ k, p = 6 * k + 5 := ⟨p / 6, by omega⟩
  obtain ⟨l, hl⟩ : ∃ l, q = 6 * l + 5 := ⟨q / 6, by omega⟩
  have key : 2 * ((p - 1) * (q - 1)) + 1 =
      3 * (24 * k * l + 16 * k + 16 * l + 11) := by
    subst hk; subst hl; ring
  constructor
  · rw [key]
    exact Int.mul_emod_right 3 _
  · rw [decryption_exponent, key, Int.mul_fdiv_cancel_left _ (by norm_num)]

theorem claim_C5_witness :
    (2 * (((5 : ℤ) - 1) * ((11 : ℤ) - 1)) + 1) % 3 = 0 ∧
    3 * decryption_exponent 5 11 = 2 * (((5 : ℤ) - 1) * ((11 : ℤ) - 1)) + 1 :=
  claim_C5 5 11 (by decide) (by decide)

/-- C6: `encrypt m n` fails exactly when `m ∉ [0, n)` and otherwise
returns `m ^ 3 % n`; `decrypt c p q` fails exactly when `c ∉ [0, p*q)`
and otherwise returns a value in `[0, p*q)`. -/
theorem claim_C6 (m n c p q : ℤ) :
    (encrypt m n = none ↔ ¬(0 ≤ m ∧ m < n)) ∧
    ((0 ≤ m ∧ m < n) → encrypt m n = some (m ^ 3 % n)) ∧
    (decrypt c p q = none ↔ ¬(0 ≤ c ∧ c < p * q)) ∧
    (∀ r, decrypt c p q = some r → 0 ≤ r ∧ r < p * q) := by
  refine ⟨?_, ?_, ?_, ?_⟩
  · by_cases h : 0 ≤ m ∧ m < n <;> simp [encrypt, h]
  · intro h
    simp [encrypt, h]
  · by_cases h : 0 ≤ c ∧ c < p * q <;> simp [decrypt, h]
  · intro r hr
    by_cases h : 0 ≤ c ∧ c < p * q
    · have hn : 0 < p * q := lt_of_le_of_lt h.1 h.2
      simp only [decrypt] at hr
      rw [if_pos h] at hr
      have hx := Option.some.inj hr
      subst hx
      exact ⟨Int.emod_nonneg _ (ne_of_gt hn), Int.emod_lt_of_pos _ hn⟩
    · simp [decrypt, h] at hr

theorem claim_C6_witness :
    encrypt (-1) 55 = none ∧ encrypt 55 55 = none ∧
    encrypt 2 55 = some ((2 : ℤ) ^ 3 % 55) ∧
    decrypt 55 5 11 = none ∧
    (0 ≤ (2 : ℤ) ∧ (2 : ℤ) < 5 * 11) :=
  ⟨(claim_C6 (-1) 55 0 5 11).1.mpr (by decide),
   (claim_C6 55 55 0 5 11).1.mpr (by decide),
   (claim_C6 2 55 0 5 11).2.1 ⟨by decide, by decide⟩,
   (claim_C6 0 1 55 5 11).2.2.1.mpr (by decide),
   (claim_C6 0 1 8 5 11).2.2.2 2 (by decide)⟩

/-- C9: `encrypt` and `decrypt` are pure functions of their explicit
arguments: run against any two states of the ambient random generator
they return the same result, and they leave the generator state
untouched. -/
theorem claim_C9 (m n c p q : ℤ) (s1 s2 : List ℕ) :
    (encryptS m n s1).1 = (encryptS m n s2).1 ∧ (encryptS m n s1).2 = s1 ∧
    (decryptS c p q s1).1 = (decryptS c p q s2).1 ∧ (decryptS c p q s1).2 = s1 :=
  ⟨rfl, rfl, rfl, rfl⟩

/-- C1: round-trip correctness — for distinct primes p, q ≡ 5 (mod 6)
and any message `0 ≤ m < p*q`, decrypting the encryption of m under the
modulus `p*q` with the secret pair (p, q) gives back m. -/
theorem claim_C1 (p q : ℕ) (hp : Nat.Prime p) (hq : Nat.Prime q)
    (hp6 : p % 6 = 5) (hq6 : q % 6 = 5) (hne : p ≠ q)
    (m : ℤ) (hm0 : 0 ≤ m) (hm : m < (p : ℤ) * q) :
    (encrypt m ((p : ℤ) * q)).bind (fun c => decrypt c p q) = some m := by
  have hmeq : (m.toNat : ℤ) = m := Int.toNat_of_nonneg hm0
  have hmlt : m.toNat < p * q := by
    have h := hm
    rw [← hmeq] at h
    exact_mod_cast h
  have hn0 : 0 < p * q := Nat.mul_pos hp.pos hq.pos
  have henc : encrypt m ((p : ℤ) * q) =
      some (((m.toNat ^ 3 % (p * q) : ℕ) : ℤ)) := by
    rw [encrypt, if_pos ⟨hm0, hm⟩, ← hmeq]
    push_cast
    rfl
  rw [henc]
  show decrypt ((m.toNat ^ 3 % (p * q) : ℕ) : ℤ) (p : ℤ) (q : ℤ) = some m
  have hclt : ((m.toNat ^ 3 % (p * q) : ℕ) : ℤ) < (p : ℤ) * q := by
    have h : m.toNat ^ 3 % (p * q) < p * q := Nat.mod_lt _ hn0
    exact_mod_cast h
  have h1 : ((p - 1 : ℕ) : ℤ) = (p : ℤ) - 1 := by
    have h := hp.one_lt
    omega
  have h2 : ((q - 1 : ℕ) : ℤ) = (q : ℤ) - 1 := by
    have h := hq.one_lt
    omega
  have harg : 2 * (((p : ℤ) - 1) * ((q : ℤ) - 1)) + 1 =
      ((2 * ((p - 1) * (q - 1)) + 1 : ℕ) : ℤ) := by
    push_cast
    rw [h1, h2]
  have hdexp : decryption_exponent (p : ℤ) (q : ℤ) =
      (((2 * ((p - 1) * (q - 1)) + 1) / 3 : ℕ) : ℤ) := by
    rw [decryption_exponent, harg]
    exact (Int.ofNat_fdiv _ 3).symm
  simp only [decrypt]
  rw [if_pos ⟨Int.natCast_nonneg _, hclt⟩, hdexp, Int.toNat_ofNat]
  have hcore := roundtrip_core p q m.toNat hp hq hp6 hq6 hne hmlt
  have hcast : ((m.toNat ^ 3 % (p * q) : ℕ) : ℤ) ^
        ((2 * ((p - 1) * (q - 1)) + 1) / 3) % ((p : ℤ) * q) =
      (((m.toNat ^ 3 % (p * q)) ^ ((2 * ((p - 1) * (q - 1)) + 1) / 3) %
        (p * q) : ℕ) : ℤ) := by
    push_cast
    rfl
  rw [hcast, hcore, hmeq]

theorem claim_C1_witness :
    Nat.Prime 5 ∧ Nat.Prime 11 ∧ (0 : ℤ) ≤ 7 ∧ (7 : ℤ) < (5 : ℕ) * (11 : ℕ) ∧
    (encrypt 7 (((5 : ℕ) : ℤ) * ((11 : ℕ) : ℤ))).bind
      (fun c => decrypt c ((5 : ℕ) : ℤ) ((11 : ℕ) : ℤ)) = some 7 :=
  ⟨by norm_num, by norm_num, by decide, by decide,
   claim_C1 5 11 (by norm_num) (by norm_num) (by decide) (by decide)
     (by decide) 7 (by decide) (by decide)⟩

/-- For a prime `p ≥ 5` the cubing map on `ZMod p` has exactly the three
fixed points 0, 1, -1. -/
theorem card_cube_fixed_prime (p : ℕ) [NeZero p] (hp : p.Prime) (hp5 : 5 ≤ p) :
    (Finset.univ.filter fun x : ZMod p => x ^ 3 = x).card = 3 := by
  haveI := Fact.mk hp
  have hset : (Finset.univ.filter fun x : ZMod p => x ^ 3 = x) =
      {0, 1, -1} := by
    ext x
    simp only [Finset.mem_filter, Finset.mem_univ, true_and,
      Finset.mem_insert, Finset.mem_singleton]
    constructor
    · intro h
      have h0 : x * ((x - 1) * (x + 1)) = 0 := by linear_combination h
      rcases mul_eq_zero.mp h0 with h' | h'
      · exact Or.inl h'
      · rcases mul_eq_zero.mp h' with h'' | h''
        · exact Or.inr (Or.inl (sub_eq_zero.mp h''))
        · exact Or.inr (Or.inr (eq_neg_of_add_eq_zero_left h''))
    · rintro (rfl | rfl | rfl) <;> ring
  have h2 : ((2 : ℕ) : ZMod p) ≠ 0 := by
    rw [Ne, ZMod.natCast_zmod_eq_zero_iff_dvd]
    intro hdvd
    have h := Nat.le_of_dvd (by omega) hdvd
    omega
  have h1n1 : (1 : ZMod p) ≠ -1 := by
    intro h
    apply h2
    rw [Nat.cast_ofNat]
    linear_combination h
  have h01 : (0 : ZMod p) ≠ 1 := (zero_ne_one : (0 : ZMod p) ≠ 1)
  have h0n1 : (0 : ZMod p) ≠ -1 := by
    intro h
    exact one_ne_zero (neg_eq_zero.mp h.symm)
  rw [hset]
  rw [Finset.card_insert_of_not_mem (by simp [h01, h0n1]),
    Finset.card_insert_of_not_mem (by simp [h1n1]), Finset.card_singleton]

/-- The Chinese remainder theorem splits the fixed points of cubing in
`ZMod (p*q)` into the product of those mod p and mod q. -/
theorem card_cube_fixed_mul (p q : ℕ) [NeZero p] [NeZero q]
    (hp : p.Prime) (hq : q.Prime) (hne : p ≠ q) :
    (Finset.univ.filter fun x : ZMod (p * q) => x ^ 3 = x).card =
      (Finset.univ.filter fun x : ZMod p => x ^ 3 = x).card *
      (Finset.univ.filter fun x : ZMod q => x ^ 3 = x).card := by
  have hcop : Nat.Coprime p q := (Nat.coprime_primes hp hq).mpr hne
  have e := ZMod.chineseRemainder hcop
  have hstep :
      (Finset.univ.filter fun x : ZMod (p * q) => x ^ 3 = x).card =
      (Finset.univ.filter
        fun y : ZMod p × ZMod q => y.1 ^ 3 = y.1 ∧ y.2 ^ 3 = y.2).card := by
    apply Finset.card_equiv e.toEquiv
    intro x
    simp only [Finset.mem_filter, Finset.mem_univ, true_and,
      RingEquiv.toEquiv_eq_coe, EquivLike.coe_coe]
    constructor
    · intro h
      have hmap : e (x ^ 3) = e x := by rw [h]
      rw [map_pow] at hmap
      exact ⟨congrArg Prod.fst hmap, congrArg Prod.snd hmap⟩
    · intro h
      have hcomp : (e x) ^ 3 = e x := Prod.ext h.1 h.2
      have hmap : e (x ^ 3) = e x := by rw [map_pow]; exact hcomp
      exact e.injective hmap
  have hprod : (Finset.univ.filter
      fun y : ZMod p × ZMod q => y.1 ^ 3 = y.1 ∧ y.2 ^ 3 = y.2) =
      (Finset.univ.filter fun x : ZMod p => x ^ 3 = x) ×ˢ
      (Finset.univ.filter fun x : ZMod q => x ^ 3 = x) := by
    ext y
    obtain ⟨a, b⟩ := y
    simp only [Finset.mem_filter, Finset.mem_univ, true_and,
      Finset.mem_product]
  rw [hstep, hprod, Finset.card_product]

/-- Counting encryption fixed points over `[0, n)` is counting cubing
fixed points in `ZMod n`. -/
theorem card_fixed_range (n : ℕ) [NeZero n] (hn : 1 < n) :
    ((Finset.range n).filter
      fun m : ℕ => encrypt (m : ℤ) ((n : ℕ) : ℤ) = some (m : ℤ)).card =
    (Finset.univ.filter fun x : ZMod n => x ^ 3 = x).card := by
  have hiff : ∀ m : ℕ, m < n →
      (encrypt (m : ℤ) ((n : ℕ) : ℤ) = some (m : ℤ) ↔
        ((m : ZMod n)) ^ 3 = (m : ZMod n)) := by
    intro m hm
    have henc : encrypt (m : ℤ) ((n : ℕ) : ℤ) =
        some ((m : ℤ) ^ 3 % ((n : ℕ) : ℤ)) := by
      rw [encrypt, if_pos ⟨Int.natCast_nonneg _, by exact_mod_cast hm⟩]
    have hcast : (m : ℤ) ^ 3 % ((n : ℕ) : ℤ) = ((m ^ 3 % n : ℕ) : ℤ) := by
      push_cast
      rfl
    rw [henc, Option.some_inj, hcast]
    constructor
    · intro h
      have hnat : m ^ 3 % n = m := by exact_mod_cast h
      calc (m : ZMod n) ^ 3 = ((m ^ 3 : ℕ) : ZMod n) := by push_cast; rfl
        _ = ((m ^ 3 % n : ℕ) : ZMod n) := (ZMod.natCast_mod _ _).symm
        _ = (m : ZMod n) := by rw [hnat]
    · intro h
      have h1 : ((m ^ 3 % n : ℕ) : ZMod n) = ((m : ℕ) : ZMod n) := by
        rw [ZMod.natCast_mod]
        push_cast
        exact h
      have h2 : m ^ 3 % n = m := by
        have hv := congrArg ZMod.val h1
        rwa [ZMod.val_cast_of_lt (Nat.mod_lt _ (by omega)),
          ZMod.val_cast_of_lt hm] at hv
      exact_mod_cast h2
  apply Finset.card_nbij' (fun m : ℕ => (m : ZMod n)) (fun x : ZMod n => x.val)
  · intro m hmem
    rw [Finset.mem_filter] at hmem
    have hm : m < n := Finset.mem_range.mp hmem.1
    exact Finset.mem_filter.mpr ⟨Finset.mem_univ _, (hiff m hm).mp hmem.2⟩
  · intro x hmem
    rw [Finset.mem_filter] at hmem
    have hx : ((x.val : ZMod n)) ^ 3 = (x.val : ZMod n) := by
      rw [ZMod.natCast_rightInverse x]
      exact hmem.2
    exact Finset.mem_filter.mpr
      ⟨Finset.mem_range.mpr (ZMod.val_lt x), (hiff x.val (ZMod.val_lt x)).mpr hx⟩
  · intro m hmem
    rw [Finset.mem_filter] at hmem
    exact ZMod.val_cast_of_lt (Finset.mem_range.mp hmem.1)
  · intro x _
    exact ZMod.natCast_rightInverse x

/-- C7: for distinct primes p, q ≡ 5 (mod 6) the cubing map has exactly
9 fixed points among the messages in `[0, p*q)`, whatever the size of
the modulus; and for p = 5, q = 11 they are exactly
{0, 1, 10, 11, 21, 34, 44, 45, 54}. -/
theorem claim_C7 (p q : ℕ) (hp : Nat.Prime p) (hq : Nat.Prime q)
    (hp6 : p % 6 = 5) (hq6 : q % 6 = 5) (hne : p ≠ q) :
    ((Finset.range (p * q)).filter
      fun m : ℕ => encrypt (m : ℤ) ((p * q : ℕ) : ℤ) = some (m : ℤ)).card = 9 ∧
    ((Finset.range 55).filter
      fun m : ℕ => encrypt (m : ℤ) ((55 : ℕ) : ℤ) = some (m : ℤ)) =
      {0, 1, 10, 11, 21, 34, 44, 45, 54} := by
  constructor
  · have hp5 : 5 ≤ p := by omega
    have hq5 : 5 ≤ q := by omega
    have h25 : 25 ≤ p * q := Nat.mul_le_mul hp5 hq5
    haveI : NeZero p := ⟨hp.pos.ne'⟩
    haveI : NeZero q := ⟨hq.pos.ne'⟩
    haveI : NeZero (p * q) := ⟨by omega⟩
    rw [card_fixed_range (p * q) (by omega), card_cube_fixed_mul p q hp hq hne,
      card_cube_fixed_prime p hp hp5, card_cube_fixed_prime q hq hq5]
  · decide

theorem claim_C7_witness :
    ((Finset.range (5 * 11)).filter
      fun m : ℕ => encrypt (m : ℤ) ((5 * 11 : ℕ) : ℤ) = some (m : ℤ)).card = 9 ∧
    ((Finset.range 55).filter
      fun m : ℕ => encrypt (m : ℤ) ((55 : ℕ) : ℤ) = some (m : ℤ)) =
      {0, 1, 10, 11, 21, 34, 44, 45, 54} :=
  claim_C7 5 11 (by norm_num) (by norm_num) (by decide) (by decide) (by decide)
